import Mathlib

/-!
Oniguruma POSIX error catalog and the rubex capture bridge.

Shallow embedding of `onig_posix_regerror` (third_party/oniguruma/src/regposerr.c)
and of the capture extraction declared in rubex/chelper.h.

Conventions of the embedding
* a C `char` is a Lean `Char`; the terminator is `NUL`;
* a `char*` that is read (`s`) is `Option (List Char)`: `none` is `NULL`, `some l` is the
  sequence of bytes stored from the pointed address on (a literal is its characters
  followed by `NUL`);
* a `char*` that is written (`buf`) is `Option (Nat → Char)`: `none` is `NULL`,
  `some m` gives the byte `m i` stored at `buf + i`;
* `int` is `Int` (32 bits by `SIZEOF_INT 4` in config.h), `size_t` is `Nat`;
* reading through `NULL`, reading past the end of a table or of an unterminated string
  is a `Fault`.

The file `config.h` is the one included outside Windows, so `xsnprintf` is `snprintf`
and `xstrncpy` is `strncpy`.
-/

namespace Regposerr

/-- The byte that terminates a C string. -/
def NUL : Char := Char.ofNat 0

/-- Ways in which the C code could leave defined behaviour while reading. -/
inductive Fault
  | indexOutOfBounds
  | nullDereference
  | unterminated
  deriving DecidableEq, Repr

/-- Bytes of a C string literal: its characters, then the terminator. -/
def literal (s : String) : List Char := s.toList ++ [NUL]

/-- Least value of a 32-bit `int`. -/
def INT_MIN : Int := -2147483648

/-- Greatest value of a 32-bit `int`. -/
def INT_MAX : Int := 2147483647

/-- The table `ESTRING` of regposerr.c, entry 0 being `NULL`. -/
def ESTRING : List (Option (List Char)) :=
  [ none,
    some (literal "failed to match"),
    some (literal "Invalid regular expression"),
    some (literal "invalid collating element referenced"),
    some (literal "invalid character class type referenced"),
    some (literal "bad backslash-escape sequence"),
    some (literal "invalid back reference number"),
    some (literal "imbalanced [ and ]"),
    some (literal "imbalanced ( and )"),
    some (literal "imbalanced \x7b and \x7d"),
    some (literal "invalid repeat range \x7bn,m\x7d"),
    some (literal "invalid range"),
    some (literal "Out of memory"),
    some (literal "? * + not preceded by valid regular expression"),
    some (literal "internal error"),
    some (literal "invalid wide char value"),
    some (literal "invalid argument") ]

/-- Number of entries, `sizeof(ESTRING) / sizeof(ESTRING[0])`. -/
def ESTRING_COUNT : Nat := ESTRING.length

/-- Output of the conversion `%d`: the signed decimal digits of an `int`. -/
def formatD (d : Int) : List Char := (Int.repr d).toList

/-- Expansion of the format `"undefined error code (%d)"`. -/
def formatUndefined (d : Int) : List Char :=
  "undefined error code (".toList ++ formatD d ++ ")".toList

/-- Bytes that `snprintf(dst, size, ...)` stores in `dst` when the expanded format is
`formatted`: at most `size - 1` characters and a terminator, nothing when `size` is 0. -/
def xsnprintf (size : Nat) (formatted : List Char) : List Char :=
  if size = 0 then [] else formatted.take (size - 1) ++ [NUL]

/-- Scan of `strlen`: number of bytes before the first `NUL`. -/
def strlenScan : List Char → Except Fault Nat
  | [] => .error .unterminated
  | c :: cs => if c = NUL then .ok 0 else (strlenScan cs).map (fun n => n + 1)

/-- The libc function `strlen`. -/
def strlen : Option (List Char) → Except Fault Nat
  | none => .error .nullDereference
  | some s => strlenScan s

/-- The `n` bytes that `strncpy(dest, src, n)` stores: the characters of `src` up to its
terminator, then `NUL` in each remaining position; no terminator is stored when `src`
has `n` characters or more. -/
def strncpyBytes : List Char → Nat → Except Fault (List Char)
  | _, 0 => .ok []
  | [], _ + 1 => .error .unterminated
  | c :: cs, n + 1 =>
    if c = NUL then .ok (List.replicate (n + 1) NUL)
    else (strncpyBytes cs n).map (fun bs => c :: bs)

/-- Memory after the bytes `bs` are stored at offsets `0 .. bs.length - 1`. -/
def store (dest : Nat → Char) (bs : List Char) : Nat → Char :=
  fun i => match bs[i]? with
    | some c => c
    | none => dest i

/-- The libc function `strncpy` (the macro `xstrncpy` outside Windows). -/
def xstrncpy (dest : Nat → Char) (src : Option (List Char)) (n : Nat) :
    Except Fault (Nat → Char) :=
  match src with
  | none => if n = 0 then .ok dest else .error .nullDereference
  | some s => (strncpyBytes s n).map (fun bs => store dest bs)

/-- Lines 119-129 of regposerr.c: the pointer `s` chosen for `posix_ecode`. -/
def selectMessage (posix_ecode : Int) : Except Fault (Option (List Char)) :=
  if posix_ecode > 0 ∧ posix_ecode < (ESTRING_COUNT : Int) then
    match ESTRING[posix_ecode.toNat]? with
    | some p => .ok p
    | none => .error .indexOutOfBounds
  else if posix_ecode = 0 then
    .ok (some (literal ""))
  else
    .ok (some (xsnprintf 35 (formatUndefined posix_ecode)))

/-- The function `onig_posix_regerror` of regposerr.c: the returned `size_t` together
with the memory at `buf` after the call. The argument `reg` is unused. -/
def onig_posix_regerror {R : Type} (posix_ecode : Int) (_reg : Option R)
    (buf : Option (Nat → Char)) (size : Nat) : Except Fault (Nat × Option (Nat → Char)) := do
  let s ← selectMessage posix_ecode
  let len := (← strlen s) + 1
  match buf with
  | some b =>
    if size > 0 then
      let b1 ← xstrncpy b s (size - 1)
      let b2 := Function.update b1 (size - 1) NUL
      pure (len, some b2)
    else
      pure (len, some b)
  | none => pure (len, none)

/-- The first `n` bytes of a memory region. -/
def firstBytes (m : Nat → Char) (n : Nat) : List Char := (List.range n).map m

/-- The C string designated by `s` for `posix_ecode`: the bytes before the terminator. -/
def messageOf (posix_ecode : Int) : List Char :=
  match selectMessage posix_ecode with
  | .ok (some s) => s.takeWhile (fun c => c != NUL)
  | _ => []

/-- The C string a caller reads back from a buffer of `size` bytes: the bytes before the
first terminator among the first `size`, or `none` when there is no terminator there. -/
def readCString (m : Nat → Char) (size : Nat) : Option (List Char) :=
  if NUL ∈ firstBytes m size then some ((firstBytes m size).takeWhile (fun c => c != NUL))
  else none

/-- Number written by a list of decimal digits, most significant first. -/
def decimalValue (l : List Char) : Nat :=
  l.foldl (fun a c => 10 * a + (c.toNat - 48)) 0

/-- Memory left at `buf` by a call with a non-null `buf`. -/
def bufferAfter (m : List Char) (b : Nat → Char) (size : Nat) : Nat → Char :=
  if size > 0 then
    Function.update
      (store b (m.take (size - 1) ++ List.replicate (size - 1 - m.length) NUL)) (size - 1) NUL
  else b

end Regposerr

namespace Rubex

/-- Modelled from the spec: a capture slot of the CaptureSlotBuffer, a (start, end) pair of
byte offsets, both -1 when the group is unset. -/
abbrev Slot := Int × Int

/-- Modelled from the spec: the answer of the matching engine, which the bridge treats as
a black box: an error code, no match, or the spans of all groups with the whole match
first. -/
inductive EngineResult
  | error (code : Int)
  | noMatch
  | matched (groups : List Slot)

/-- Modelled from the spec: the MatchReport of section 4.2. -/
structure MatchReport where
  total_groups_found : Nat
  slots_written : Nat
  deriving DecidableEq, Repr

/-- Modelled from the spec: the results of `search`: the usage error BadArgument, an engine
error forwarded with its code, the explicit no-match result, or a report. -/
inductive SearchOutcome
  | badArgument
  | engineError (code : Int)
  | notFound
  | found (report : MatchReport)
  deriving DecidableEq, Repr

/-- Modelled from the spec: the Capture Extractor (the body of `SearchOnigRegex` is in
chelper.c, which is not among the sources). The groups are visited in order from slot
`i`; a group is copied to its slot when the slot index is below `out_capacity`, and
`written` counts the copies. -/
def copySlots (out_capacity : Nat) :
    List Slot → Nat → (Nat → Slot) → Nat → (Nat → Slot) × Nat
  | [], _, out, written => (out, written)
  | g :: gs, i, out, written =>
    if i < out_capacity then
      copySlots out_capacity gs (i + 1) (Function.update out i g) (written + 1)
    else
      copySlots out_capacity gs (i + 1) out written

/-- Modelled from the spec: `search` of section 4.2, declared as `SearchOnigRegex` in
chelper.h and defined in chelper.c, which is not among the sources. An offset outside
`0 .. length` is the usage error; otherwise the engine is asked, its error or no-match
answer is relayed with `out` untouched, and on a match the report carries the true group
count and the number of slots copied. -/
def SearchOnigRegex {H O : Type} (engine : H → List Char → Int → O → EngineResult)
    (handle : H) (buffer : List Char) (length offset : Int) (options : O)
    (out : Nat → Slot) (out_capacity : Nat) : SearchOutcome × (Nat → Slot) :=
  if offset < 0 ∨ offset > length then (.badArgument, out)
  else
    match engine handle buffer offset options with
    | .error code => (.engineError code, out)
    | .noMatch => (.notFound, out)
    | .matched groups =>
      let r := copySlots out_capacity groups 0 out 0
      (.found { total_groups_found := groups.length, slots_written := r.2 }, r.1)

end Rubex

namespace Regposerr

/-! ## Decimal digits contain no terminator and are few -/

theorem digitChar_ne_NUL (n : Nat) (h : n < 10) : Nat.digitChar n ≠ NUL := by
  interval_cases n <;> decide

theorem toDigitsCore_no_NUL (fuel : Nat) :
    ∀ (n : Nat) (ds : List Char), NUL ∉ ds → NUL ∉ Nat.toDigitsCore 10 fuel n ds := by
  induction fuel with
  | zero => intro n ds h; simpa [Nat.toDigitsCore] using h
  | succ f ih =>
    intro n ds h
    have hd : NUL ∉ Nat.digitChar (n % 10) :: ds := by
      simp only [List.mem_cons, not_or]
      exact ⟨fun e => digitChar_ne_NUL _ (Nat.mod_lt _ (by decide)) e.symm, h⟩
    simp only [Nat.toDigitsCore]
    split_ifs
    · exact hd
    · exact ih _ _ hd

theorem repr_no_NUL (n : Nat) : NUL ∉ (Nat.repr n).toList := by
  have h := toDigitsCore_no_NUL (n + 1) n [] (by simp)
  simpa [Nat.repr, Nat.toDigits, List.asString] using h

theorem formatD_no_NUL (d : Int) : NUL ∉ formatD d := by
  cases d with
  | ofNat m => simpa [formatD, Int.repr] using repr_no_NUL m
  | negSucc m =>
    have h := repr_no_NUL (m + 1)
    simp only [formatD, Int.repr, String.toList, String.data_append, List.mem_append, not_or]
    exact ⟨by decide, h⟩

theorem formatUndefined_no_NUL (d : Int) : NUL ∉ formatUndefined d := by
  simp only [formatUndefined, List.mem_append, not_or]
  exact ⟨⟨by decide, formatD_no_NUL d⟩, by decide⟩

theorem formatD_length (d : Int) (hlo : INT_MIN ≤ d) (hhi : d ≤ INT_MAX) :
    (formatD d).length ≤ 11 := by
  unfold INT_MIN at hlo
  unfold INT_MAX at hhi
  cases d with
  | ofNat m =>
    have hm : m < 10 ^ 10 := by
      have : (m : Int) ≤ 2147483647 := hhi
      omega
    have h := Nat.repr_length m 10 (by decide) hm
    simp only [formatD, Int.repr]
    simp only [String.length] at h
    exact le_trans h (by decide)
  | negSucc m =>
    have hm : m + 1 < 10 ^ 10 := by
      have h1 : Int.negSucc m ≥ -2147483648 := hlo
      have h2 := Int.negSucc_eq m
      omega
    have h := Nat.repr_length (m + 1) 10 (by decide) hm
    simp only [String.length] at h
    simp only [formatD, Int.repr, String.toList, String.data_append, List.length_append,
      Nat.succ_eq_add_one, List.length_cons, List.length_nil]
    omega

theorem formatUndefined_length (d : Int) (hlo : INT_MIN ≤ d) (hhi : d ≤ INT_MAX) :
    (formatUndefined d).length ≤ 34 := by
  have h := formatD_length d hlo hhi
  have h1 : "undefined error code (".toList.length = 22 := by decide
  have h2 : ")".toList.length = 1 := by decide
  simp only [formatUndefined, List.length_append, h1, h2]
  omega

/-! ## The libc primitives on terminated strings -/

theorem takeWhile_terminated (m : List Char) (h : NUL ∉ m) :
    (m ++ [NUL]).takeWhile (fun c => c != NUL) = m := by
  induction m with
  | nil => simp [List.takeWhile]
  | cons c cs ih =>
    simp only [List.mem_cons, not_or] at h
    have hc : c ≠ NUL := fun e => h.1 e.symm
    simp [List.takeWhile_cons, hc, ih h.2]

theorem strlenScan_terminated (m : List Char) (h : NUL ∉ m) :
    strlenScan (m ++ [NUL]) = .ok m.length := by
  induction m with
  | nil => simp [strlenScan]
  | cons c cs ih =>
    simp only [List.mem_cons, not_or] at h
    have hc : c ≠ NUL := fun e => h.1 e.symm
    simp [strlenScan, hc, ih h.2, Except.map]

theorem strncpyBytes_terminated (m : List Char) (h : NUL ∉ m) :
    ∀ n, strncpyBytes (m ++ [NUL]) n = .ok (m.take n ++ List.replicate (n - m.length) NUL) := by
  induction m with
  | nil =>
    intro n
    cases n with
    | zero => simp [strncpyBytes]
    | succ k => simp [strncpyBytes]
  | cons c cs ih =>
    intro n
    simp only [List.mem_cons, not_or] at h
    have hc : c ≠ NUL := fun e => h.1 e.symm
    cases n with
    | zero => simp [strncpyBytes]
    | succ k => simp [strncpyBytes, hc, ih h.2 k, Except.map]

/-! ## The pointer `s` always designates a terminated string -/

theorem selectMessage_table (n : Nat) (h0 : 0 < n) (h17 : n < 17) :
    selectMessage (n : Int) = .ok (some (messageOf (n : Int) ++ [NUL])) ∧
      NUL ∉ messageOf (n : Int) := by
  interval_cases n <;> exact ⟨rfl, by decide⟩

theorem selectMessage_undefined (c : Int) (h : ¬ (c > 0 ∧ c < (ESTRING_COUNT : Int)))
    (h0 : c ≠ 0) : selectMessage c = .ok (some (xsnprintf 35 (formatUndefined c))) := by
  simp [selectMessage, h, h0]

theorem ESTRING_COUNT_eq : ESTRING_COUNT = 17 := by decide

theorem selectMessage_terminated (c : Int) :
    selectMessage c = .ok (some (messageOf c ++ [NUL])) ∧ NUL ∉ messageOf c := by
  by_cases h : c > 0 ∧ c < (ESTRING_COUNT : Int)
  · rw [ESTRING_COUNT_eq] at h
    obtain ⟨n, rfl⟩ : ∃ n : Nat, c = (n : Int) := ⟨c.toNat, by omega⟩
    exact selectMessage_table n (by omega) (by omega)
  · by_cases h0 : c = 0
    · subst h0
      exact ⟨rfl, by decide⟩
    · have hs := selectMessage_undefined c h h0
      have ht : NUL ∉ (formatUndefined c).take 34 :=
        fun hm => formatUndefined_no_NUL c (List.mem_of_mem_take hm)
      have hx : xsnprintf 35 (formatUndefined c) = (formatUndefined c).take 34 ++ [NUL] := by
        simp [xsnprintf]
      have hm : messageOf c = (formatUndefined c).take 34 := by
        simp only [messageOf, hs, hx]
        exact takeWhile_terminated _ ht
      rw [hm, hs, hx]
      exact ⟨rfl, ht⟩

theorem messageOf_undefined (c : Int) (h : ¬ (c > 0 ∧ c < (ESTRING_COUNT : Int)))
    (h0 : c ≠ 0) : messageOf c = (formatUndefined c).take 34 := by
  have hs := selectMessage_undefined c h h0
  have ht : NUL ∉ (formatUndefined c).take 34 :=
    fun hm => formatUndefined_no_NUL c (List.mem_of_mem_take hm)
  have hx : xsnprintf 35 (formatUndefined c) = (formatUndefined c).take 34 ++ [NUL] := by
    simp [xsnprintf]
  simp only [messageOf, hs, hx]
  exact takeWhile_terminated _ ht

/-! ## What one call does -/

theorem regerror_eq {R : Type} (c : Int) (reg : Option R) (buf : Option (Nat → Char))
    (size : Nat) :
    onig_posix_regerror c reg buf size =
      .ok ((messageOf c).length + 1, buf.map (fun b => bufferAfter (messageOf c) b size)) := by
  obtain ⟨hs, hn⟩ := selectMessage_terminated c
  cases buf with
  | none =>
    simp [onig_posix_regerror, hs, strlen, strlenScan_terminated _ hn, bind, Except.bind, pure,
      Except.pure]
  | some b =>
    by_cases hz : size > 0
    · simp [onig_posix_regerror, hs, strlen, strlenScan_terminated _ hn, bind, Except.bind, pure,
        Except.pure, hz, xstrncpy, strncpyBytes_terminated _ hn, Except.map, bufferAfter]
    · simp [onig_posix_regerror, hs, strlen, strlenScan_terminated _ hn, bind, Except.bind, pure,
        Except.pure, hz, bufferAfter]

theorem store_apply_lt (b : Nat → Char) (bs : List Char) (i : Nat) (h : i < bs.length) :
    store b bs i = bs[i] := by
  simp [store, List.getElem?_eq_getElem h]

theorem store_apply_ge (b : Nat → Char) (bs : List Char) (i : Nat) (h : bs.length ≤ i) :
    store b bs i = b i := by
  simp [store, List.getElem?_eq_none h]

theorem copied_length (m : List Char) (k : Nat) :
    (m.take k ++ List.replicate (k - m.length) NUL).length = k := by
  simp only [List.length_append, List.length_take, List.length_replicate]
  omega

theorem bufferAfter_beyond (m : List Char) (b : Nat → Char) (size i : Nat) (h : size ≤ i) :
    bufferAfter m b size i = b i := by
  unfold bufferAfter
  split_ifs with hz
  · rw [Function.update_noteq (by omega)]
    exact store_apply_ge _ _ _ (by rw [copied_length]; omega)
  · rfl

theorem bufferAfter_last (m : List Char) (b : Nat → Char) (size : Nat) (h : 0 < size) :
    bufferAfter m b size (size - 1) = NUL := by
  simp [bufferAfter, h]

theorem bufferAfter_message (m : List Char) (b : Nat → Char) (size i : Nat)
    (h : i < size - 1) (hm : i < m.length) : bufferAfter m b size i = m[i] := by
  have hz : size > 0 := by omega
  simp only [bufferAfter, hz, if_true]
  rw [Function.update_noteq (by omega)]
  rw [store_apply_lt _ _ _ (by rw [copied_length]; exact h)]
  rw [List.getElem_append_left (by simp only [List.length_take]; omega)]
  simp

theorem bufferAfter_padding (m : List Char) (b : Nat → Char) (size i : Nat)
    (h : i < size) (hm : m.length ≤ i) : bufferAfter m b size i = NUL := by
  have hz : size > 0 := by omega
  by_cases hl : i = size - 1
  · rw [hl]; exact bufferAfter_last m b size hz
  · simp only [bufferAfter, hz, if_true]
    rw [Function.update_noteq hl]
    rw [store_apply_lt _ _ _ (by rw [copied_length]; omega)]
    rw [List.getElem_append_right (by simp only [List.length_take]; omega)]
    simp

theorem firstBytes_length (f : Nat → Char) (n : Nat) : (firstBytes f n).length = n := by
  simp [firstBytes]

theorem firstBytes_getElem (f : Nat → Char) (n i : Nat) (h : i < (firstBytes f n).length) :
    (firstBytes f n)[i] = f i := by
  simp [firstBytes]

theorem getElem_all_NUL (k j : Nat) (h : j < (NUL :: List.replicate k NUL).length) :
    (NUL :: List.replicate k NUL)[j] = NUL := by
  have hall : ∀ x ∈ (NUL :: List.replicate k NUL), x = NUL := by
    intro x hx
    simp only [List.mem_cons, List.mem_replicate] at hx
    rcases hx with hx | hx
    · exact hx
    · exact hx.2
  exact hall _ (List.getElem_mem ..)

theorem firstBytes_bufferAfter (m : List Char) (b : Nat → Char) (size : Nat) (h : 0 < size) :
    firstBytes (bufferAfter m b size) size =
      m.take (size - 1) ++ NUL :: List.replicate (size - 1 - m.length) NUL := by
  apply List.ext_getElem
  · simp only [firstBytes_length, List.length_append, List.length_take, List.length_cons,
      List.length_replicate]
    omega
  · intro i h1 h2
    rw [firstBytes_getElem]
    rw [firstBytes_length] at h1
    by_cases hm : i < m.length
    · by_cases hl : i < size - 1
      · rw [bufferAfter_message m b size i hl hm]
        rw [List.getElem_append_left (by simp only [List.length_take]; omega)]
        simp
      · have hi : i = size - 1 := by omega
        subst hi
        rw [bufferAfter_last m b size h]
        rw [List.getElem_append_right (by simp only [List.length_take]; omega)]
        exact (getElem_all_NUL _ _ _).symm
    · rw [bufferAfter_padding m b size i h1 (by omega)]
      rw [List.getElem_append_right (by simp only [List.length_take]; omega)]
      exact (getElem_all_NUL _ _ _).symm

theorem takeWhile_until_NUL (m rest : List Char) (h : NUL ∉ m) :
    (m ++ NUL :: rest).takeWhile (fun c => c != NUL) = m := by
  induction m with
  | nil => simp [List.takeWhile_cons]
  | cons c cs ih =>
    simp only [List.mem_cons, not_or] at h
    have hc : c ≠ NUL := fun e => h.1 e.symm
    simp [List.takeWhile_cons, hc, ih h.2]

theorem readCString_bufferAfter (m : List Char) (b : Nat → Char) (size : Nat) (h : 0 < size)
    (hn : NUL ∉ m) : readCString (bufferAfter m b size) size = some (m.take (size - 1)) := by
  have ht : NUL ∉ m.take (size - 1) := fun hm => hn (List.mem_of_mem_take hm)
  unfold readCString
  rw [firstBytes_bufferAfter m b size h, takeWhile_until_NUL _ _ ht]
  simp

theorem regerror_whole_message {R : Type} (c : Int) (t : List Char) (ht : messageOf c = t)
    (reg : Option R) (b : Nat → Char) (size : Nat) (hsize : t.length < size) :
    ∃ b', onig_posix_regerror c reg (some b) size = .ok (t.length + 1, some b') ∧
      readCString b' size = some t := by
  subst ht
  refine ⟨bufferAfter (messageOf c) b size, regerror_eq c reg (some b) size, ?_⟩
  rw [readCString_bufferAfter _ b size (by omega) (selectMessage_terminated c).2]
  rw [List.take_of_length_le (by omega)]

/-! ## The claims about `onig_posix_regerror` -/

/-- C1: every code from 1 to 16 is described by its fixed, non-empty table string: `s`
points to that literal, the call returns its length plus one, and a buffer large enough
holds exactly that string after the call. -/
theorem regerror_describes_table_codes {R : Type} (c : Int) (h1 : 1 ≤ c) (h16 : c ≤ 16)
    (reg : Option R) (b : Nat → Char) (size : Nat) (hsize : (messageOf c).length < size) :
    ∃ t : String,
      [ "failed to match", "Invalid regular expression",
        "invalid collating element referenced", "invalid character class type referenced",
        "bad backslash-escape sequence", "invalid back reference number",
        "imbalanced [ and ]", "imbalanced ( and )", "imbalanced \x7b and \x7d",
        "invalid repeat range \x7bn,m\x7d", "invalid range", "Out of memory",
        "? * + not preceded by valid regular expression", "internal error",
        "invalid wide char value", "invalid argument" ][(c - 1).toNat]? = some t ∧
      t ≠ "" ∧
      ESTRING[c.toNat]? = some (some (literal t)) ∧
      selectMessage c = .ok (some (literal t)) ∧
      messageOf c = t.toList ∧
      ∃ b', onig_posix_regerror c reg (some b) size = .ok (t.length + 1, some b') ∧
        readCString b' size = some t.toList := by
  obtain ⟨n, rfl⟩ : ∃ n : Nat, c = (n : Int) := ⟨c.toNat, by omega⟩
  have hn1 : 1 ≤ n := by omega
  have hn16 : n ≤ 16 := by omega
  clear h1 h16
  interval_cases n <;>
    exact ⟨_, rfl, by decide, rfl, rfl, rfl, regerror_whole_message _ _ rfl reg b size hsize⟩

/-- C1, at code 13 with a buffer of 47 bytes. -/
theorem regerror_describes_table_codes_witness :
    ((1 : Int) ≤ 13 ∧ (13 : Int) ≤ 16 ∧ (messageOf 13).length < 47) ∧
      ∃ t : String, t = "? * + not preceded by valid regular expression" ∧
        messageOf 13 = t.toList ∧
        ∃ b', onig_posix_regerror 13 (none : Option Unit) (some (fun _ => Char.ofNat 120)) 47
            = .ok (t.length + 1, some b') ∧
          readCString b' 47 = some t.toList := by
  refine ⟨by decide, ?_⟩
  obtain ⟨t, h1, _, _, _, h5, h6⟩ :=
    regerror_describes_table_codes 13 (by decide) (by decide) (none : Option Unit)
      (fun _ => Char.ofNat 120) 47 (by decide)
  have ht : t = "? * + not preceded by valid regular expression" := by
    have h := h1
    simp at h
    exact h.symm
  exact ⟨t, ht, h5, h6⟩

/-- C2: every 32-bit code outside the table (negative or above 16) is described by
`undefined error code (` followed by the signed decimal digits of the code and `)`,
without truncation by the 35-byte scratch buffer; the call returns the length of that
text plus one and a buffer large enough holds exactly that text. -/
theorem regerror_describes_undefined_codes {R : Type} (c : Int) (hlo : INT_MIN ≤ c)
    (hhi : c ≤ INT_MAX) (hout : c < 0 ∨ c > 16) (reg : Option R) (b : Nat → Char) (size : Nat)
    (hsize : (messageOf c).length < size) :
    messageOf c = ("undefined error code (" ++ Int.repr c ++ ")").toList ∧
      selectMessage c = .ok (some (literal ("undefined error code (" ++ Int.repr c ++ ")"))) ∧
      ∃ b', onig_posix_regerror c reg (some b) size =
          .ok (("undefined error code (" ++ Int.repr c ++ ")").length + 1, some b') ∧
        readCString b' size = some ("undefined error code (" ++ Int.repr c ++ ")").toList := by
  have hg : ¬ (c > 0 ∧ c < (ESTRING_COUNT : Int)) := by
    rw [ESTRING_COUNT_eq]; omega
  have h0 : c ≠ 0 := by omega
  have hF : formatUndefined c = ("undefined error code (" ++ Int.repr c ++ ")").toList := by
    simp [formatUndefined, formatD, String.toList, String.data_append]
  have hlen := formatUndefined_length c hlo hhi
  have hm : messageOf c = ("undefined error code (" ++ Int.repr c ++ ")").toList := by
    rw [messageOf_undefined c hg h0, List.take_of_length_le hlen, hF]
  have hs : selectMessage c =
      .ok (some (literal ("undefined error code (" ++ Int.repr c ++ ")"))) := by
    rw [(selectMessage_terminated c).1, hm]
    rfl
  exact ⟨hm, hs, regerror_whole_message c _ hm reg b size (by rw [← hm]; exact hsize)⟩

/-- C2, at code 999 with a buffer of 27 bytes: the text is `undefined error code (999)`. -/
theorem regerror_describes_undefined_codes_witness :
    (INT_MIN ≤ 999 ∧ (999 : Int) ≤ INT_MAX ∧ ((999 : Int) < 0 ∨ (999 : Int) > 16) ∧
        (messageOf 999).length < 27) ∧
      messageOf 999 = "undefined error code (999)".toList ∧
      ∃ b', onig_posix_regerror 999 (none : Option Unit) (some (fun _ => Char.ofNat 120)) 27
          = .ok (27, some b') ∧
        readCString b' 27 = some "undefined error code (999)".toList :=
  ⟨by decide,
    (regerror_describes_undefined_codes 999 (by decide) (by decide) (by decide)
      (none : Option Unit) (fun _ => Char.ofNat 120) 27 (by decide)).1,
    (regerror_describes_undefined_codes 999 (by decide) (by decide) (by decide)
      (none : Option Unit) (fun _ => Char.ofNat 120) 27 (by decide)).2.2⟩

/-- C3: code 0 is described by the empty string: every call returns 1, and a non-null
buffer of size at least 1 has the terminator in `buf[0]` afterwards. -/
theorem regerror_code_zero {R : Type} (reg : Option R) (b : Nat → Char) (size : Nat)
    (hsize : 1 ≤ size) :
    selectMessage 0 = .ok (some (literal "")) ∧
      messageOf 0 = [] ∧
      (∀ (buf0 : Option (Nat → Char)) (size0 : Nat),
        (onig_posix_regerror 0 reg buf0 size0).map Prod.fst = .ok 1) ∧
      ∃ b', onig_posix_regerror 0 reg (some b) size = .ok (1, some b') ∧
        b' 0 = NUL ∧ readCString b' size = some [] := by
  have hm : messageOf 0 = [] := by decide
  refine ⟨rfl, hm, fun buf0 size0 => ?_, bufferAfter (messageOf 0) b size, ?_, ?_, ?_⟩
  · rw [regerror_eq, hm]; rfl
  · rw [regerror_eq, hm]; rfl
  · exact bufferAfter_padding _ b size 0 (by omega) (by rw [hm]; exact Nat.le_refl _)
  · rw [readCString_bufferAfter _ b size (by omega) (selectMessage_terminated 0).2, hm]
    simp

/-- C3, with a one-byte buffer that held `x`. -/
theorem regerror_code_zero_witness :
    1 ≤ 1 ∧ ∃ b', onig_posix_regerror 0 (none : Option Unit) (some (fun _ => Char.ofNat 120)) 1
      = .ok (1, some b') ∧ b' 0 = NUL ∧ readCString b' 1 = some [] :=
  ⟨by decide,
    (regerror_code_zero (none : Option Unit) (fun _ => Char.ofNat 120) 1 (by decide)).2.2.2⟩

/-- C4: for every code, buffer (null or not) and size the call returns the length of the
code's message plus one for the terminator, the message being the terminated string `s`
points to; the value is the same whatever `reg`, `buf` and `size` are. -/
theorem regerror_returns_required_length {R : Type} (c : Int) (reg : Option R)
    (buf : Option (Nat → Char)) (size : Nat) :
    selectMessage c = .ok (some (messageOf c ++ [NUL])) ∧
      NUL ∉ messageOf c ∧
      strlen (some (messageOf c ++ [NUL])) = .ok (messageOf c).length ∧
      (onig_posix_regerror c reg buf size).map Prod.fst = .ok ((messageOf c).length + 1) ∧
      ∀ (reg2 : Option R) (buf2 : Option (Nat → Char)) (size2 : Nat),
        (onig_posix_regerror c reg2 buf2 size2).map Prod.fst =
          (onig_posix_regerror c reg buf size).map Prod.fst := by
  obtain ⟨hs, hn⟩ := selectMessage_terminated c
  refine ⟨hs, hn, strlenScan_terminated _ hn, ?_, fun reg2 buf2 size2 => ?_⟩
  · rw [regerror_eq]; rfl
  · rw [regerror_eq, regerror_eq]; rfl

/-- C5: for every code and every non-null buffer of size at least 1, the buffer holds
after the call a terminated string that fits in `size` bytes and consists of the first
`min L (size - 1)` bytes of the code's message, `L` being the message length; it is the
whole message when `L + 1 ≤ size`. -/
theorem regerror_buffer_holds_truncated {R : Type} (c : Int) (reg : Option R) (b : Nat → Char)
    (size : Nat) (hsize : 1 ≤ size) :
    ∃ b', onig_posix_regerror c reg (some b) size = .ok ((messageOf c).length + 1, some b') ∧
      readCString b' size = some ((messageOf c).take (min (messageOf c).length (size - 1))) ∧
      firstBytes b' (min (messageOf c).length (size - 1) + 1) =
        (messageOf c).take (min (messageOf c).length (size - 1)) ++ [NUL] ∧
      NUL ∉ (messageOf c).take (min (messageOf c).length (size - 1)) ∧
      min (messageOf c).length (size - 1) + 1 ≤ size ∧
      ((messageOf c).length + 1 ≤ size → readCString b' size = some (messageOf c)) := by
  obtain ⟨_, hn⟩ := selectMessage_terminated c
  have hk : (messageOf c).take (min (messageOf c).length (size - 1)) =
      (messageOf c).take (size - 1) := by
    rcases Nat.le_total (messageOf c).length (size - 1) with h | h
    · rw [Nat.min_eq_left h, List.take_of_length_le h, List.take_of_length_le (Nat.le_refl _)]
    · rw [Nat.min_eq_right h]
  have hread := readCString_bufferAfter (messageOf c) b size (by omega) hn
  refine ⟨bufferAfter (messageOf c) b size, regerror_eq c reg (some b) size, ?_, ?_, ?_, ?_, ?_⟩
  · rw [hk]; exact hread
  · apply List.ext_getElem
    · simp only [firstBytes_length, List.length_append, List.length_take, List.length_cons,
        List.length_nil]
      omega
    · intro i h1 h2
      rw [firstBytes_getElem]
      rw [firstBytes_length] at h1
      by_cases hi : i < min (messageOf c).length (size - 1)
      · rw [bufferAfter_message _ b size i (by omega) (by omega)]
        rw [List.getElem_append_left (by simp only [List.length_take]; omega)]
        simp
      · have hi2 : i = min (messageOf c).length (size - 1) := by omega
        rw [List.getElem_append_right (by simp only [List.length_take]; omega)]
        simp only [List.getElem_singleton]
        rcases Nat.lt_or_ge i (size - 1) with hlt | hge
        · exact bufferAfter_padding _ b size i (by omega) (by omega)
        · have : i = size - 1 := by omega
          rw [this]
          exact bufferAfter_last _ b size (by omega)
  · exact fun hmem => hn (List.mem_of_mem_take hmem)
  · omega
  · intro hfit
    rw [hread, List.take_of_length_le (by omega)]

/-- C5, for code 13 (46 characters) and an 8-byte buffer: seven characters are kept. -/
theorem regerror_buffer_holds_truncated_witness :
    1 ≤ 8 ∧ ∃ b', onig_posix_regerror 13 (none : Option Unit) (some (fun _ => Char.ofNat 120)) 8
        = .ok (47, some b') ∧
      readCString b' 8 = some "? * + n".toList := by
  refine ⟨by decide, ?_⟩
  obtain ⟨b', h1, h2, _⟩ :=
    regerror_buffer_holds_truncated 13 (none : Option Unit) (fun _ => Char.ofNat 120) 8 (by decide)
  exact ⟨b', h1, h2⟩

/-- C6: whatever the code, the buffer and the size, every byte of the buffer at an index
`size` or above has after the call the value it had before. -/
theorem regerror_writes_below_size {R : Type} (c : Int) (reg : Option R)
    (buf : Option (Nat → Char)) (size i : Nat) (hi : size ≤ i) :
    ∃ len buf', onig_posix_regerror c reg buf size = .ok (len, buf') ∧
      buf'.map (fun m => m i) = buf.map (fun m => m i) := by
  refine ⟨_, _, regerror_eq c reg buf size, ?_⟩
  cases buf with
  | none => rfl
  | some b => simp [bufferAfter_beyond _ b size i hi]

/-- C6, for code 13 and a 4-byte buffer: the byte at index 4 is still `x`. -/
theorem regerror_writes_below_size_witness :
    4 ≤ 4 ∧ ∃ len buf',
      onig_posix_regerror 13 (none : Option Unit) (some (fun _ => Char.ofNat 120)) 4
        = .ok (len, buf') ∧
      buf'.map (fun m => m 4) = some (Char.ofNat 120) :=
  ⟨by decide,
    regerror_writes_below_size 13 (none : Option Unit) (some (fun _ => Char.ofNat 120)) 4 4
      (by decide)⟩

/-- C7: the call never faults, for any code, buffer and size; `s` is never `NULL` and
always points to a terminated string; the table has 17 entries and is read only under the
guard `0 < code < 17`, where the index is in bounds and the entry is not the `NULL`
placeholder of entry 0; outside the guard the table is not consulted. -/
theorem regerror_total {R : Type} (c : Int) (reg : Option R) (buf : Option (Nat → Char))
    (size : Nat) :
    (∃ len buf', onig_posix_regerror c reg buf size = .ok (len, buf')) ∧
      (∃ m, selectMessage c = .ok (some (m ++ [NUL])) ∧ NUL ∉ m) ∧
      ESTRING_COUNT = 17 ∧
      ESTRING[0]? = some none ∧
      ((c > 0 ∧ c < (ESTRING_COUNT : Int)) →
        c.toNat < ESTRING.length ∧ c.toNat ≠ 0 ∧
          ∃ t, ESTRING[c.toNat]? = some (some t) ∧ selectMessage c = .ok (some t)) ∧
      (¬ (c > 0 ∧ c < (ESTRING_COUNT : Int)) →
        selectMessage c =
          .ok (some (if c = 0 then literal "" else xsnprintf 35 (formatUndefined c)))) := by
  refine ⟨⟨_, _, regerror_eq c reg buf size⟩, ⟨_, selectMessage_terminated c⟩, by decide, rfl,
    ?_, ?_⟩
  · intro hg
    have hg2 := hg
    rw [ESTRING_COUNT_eq] at hg2
    have hlen : ESTRING.length = 17 := by decide
    refine ⟨by omega, by omega, ?_⟩
    cases hget : ESTRING[c.toNat]? with
    | none =>
      rw [List.getElem?_eq_none_iff] at hget
      omega
    | some p =>
      have hs : selectMessage c = .ok p := by simp [selectMessage, hg, hget]
      have ht := (selectMessage_terminated c).1
      rw [hs] at ht
      injection ht with ht
      exact ⟨_, by rw [ht], by rw [hs, ht]⟩
  · intro hg
    by_cases h0 : c = 0
    · subst h0; rfl
    · rw [selectMessage_undefined c hg h0, if_neg h0]

/-- C7, at code 16, the last one under the guard. -/
theorem regerror_total_witness :
    ((16 : Int) > 0 ∧ (16 : Int) < (ESTRING_COUNT : Int)) ∧
      (16 : Int).toNat < ESTRING.length ∧ (16 : Int).toNat ≠ 0 ∧
      ∃ t, ESTRING[(16 : Int).toNat]? = some (some t) ∧ selectMessage 16 = .ok (some t) :=
  ⟨by decide, (regerror_total 16 (none : Option Unit) none 0).2.2.2.2.1 (by decide)⟩

/-- C9: for every code and every non-null buffer of size at least 1, the string left in
the buffer is the full message of the code exactly when the returned length is at most
`size`. -/
theorem regerror_truncation_detectable {R : Type} (c : Int) (reg : Option R)
    (b : Nat → Char) (size : Nat) (hsize : 1 ≤ size) :
    ∃ len b', onig_posix_regerror c reg (some b) size = .ok (len, some b') ∧
      (readCString b' size = some (messageOf c) ↔ len ≤ size) := by
  obtain ⟨_, hn⟩ := selectMessage_terminated c
  refine ⟨_, bufferAfter (messageOf c) b size, regerror_eq c reg (some b) size, ?_⟩
  rw [readCString_bufferAfter _ b size (by omega) hn]
  constructor
  · intro h
    injection h with h
    have hl := congrArg List.length h
    simp only [List.length_take] at hl
    omega
  · intro h
    rw [List.take_of_length_le (by omega)]

/-- C9, for code 13 and an 8-byte buffer: 47 exceeds 8 and the buffer does not hold the
full message. -/
theorem regerror_truncation_detectable_witness :
    1 ≤ 8 ∧ ∃ len b',
      onig_posix_regerror 13 (none : Option Unit) (some (fun _ => Char.ofNat 120)) 8
        = .ok (len, some b') ∧
      (readCString b' 8 = some (messageOf 13) ↔ len ≤ 8) :=
  ⟨by decide,
    regerror_truncation_detectable 13 (none : Option Unit) (fun _ => Char.ofNat 120) 8
      (by decide)⟩

/-- C10: when `buf` is `NULL` or `size` is 0 the call writes nothing, the buffer being
returned as it was, and still returns the message length plus one, for every code. -/
theorem regerror_no_write {R : Type} (c : Int) (reg : Option R) (buf : Option (Nat → Char))
    (size : Nat) (h : buf = none ∨ size = 0) :
    onig_posix_regerror c reg buf size = .ok ((messageOf c).length + 1, buf) := by
  rw [regerror_eq]
  cases buf with
  | none => rfl
  | some b =>
    rcases h with h | h
    · cases h
    · subst h
      rfl

/-- C10, for code 999 and a non-null buffer with size 0. -/
theorem regerror_no_write_witness :
    ((some (fun _ => Char.ofNat 120) : Option (Nat → Char)) = none ∨ 0 = 0) ∧
      onig_posix_regerror 999 (none : Option Unit) (some (fun _ => Char.ofNat 120)) 0
        = .ok ((messageOf 999).length + 1, some (fun _ => Char.ofNat 120)) :=
  ⟨Or.inr rfl,
    regerror_no_write 999 (none : Option Unit) (some (fun _ => Char.ofNat 120)) 0 (Or.inr rfl)⟩

end Regposerr

namespace Rubex

/-! ## The capture extractor -/

theorem copySlots_beyond (cap : Nat) (gs : List Slot) :
    ∀ (i : Nat) (out : Nat → Slot) (w j : Nat), cap ≤ j →
      (copySlots cap gs i out w).1 j = out j := by
  induction gs with
  | nil => intro i out w j _; rfl
  | cons g gs ih =>
    intro i out w j hj
    simp only [copySlots]
    split_ifs with h
    · rw [ih (i + 1) _ (w + 1) j hj, Function.update_noteq (by omega)]
    · exact ih (i + 1) out w j hj

theorem copySlots_count (cap : Nat) (gs : List Slot) :
    ∀ (i : Nat) (out : Nat → Slot) (w : Nat),
      (copySlots cap gs i out w).2 = w + min gs.length (cap - i) := by
  induction gs with
  | nil => intro i out w; simp [copySlots]
  | cons g gs ih =>
    intro i out w
    simp only [copySlots]
    split_ifs with h
    · rw [ih (i + 1) _ (w + 1)]
      simp only [List.length_cons]
      omega
    · rw [ih (i + 1) out w]
      simp only [List.length_cons]
      omega

theorem copySlots_below (cap : Nat) (gs : List Slot) :
    ∀ (i : Nat) (out : Nat → Slot) (w j : Nat), j < i →
      (copySlots cap gs i out w).1 j = out j := by
  induction gs with
  | nil => intro i out w j _; rfl
  | cons g gs ih =>
    intro i out w j hj
    simp only [copySlots]
    split_ifs with h
    · rw [ih (i + 1) _ (w + 1) j (by omega), Function.update_noteq (by omega)]
    · exact ih (i + 1) out w j (by omega)

theorem copySlots_copied (cap : Nat) (gs : List Slot) :
    ∀ (i : Nat) (out : Nat → Slot) (w k : Nat), k < gs.length → i + k < cap →
      some ((copySlots cap gs i out w).1 (i + k)) = gs[k]? := by
  induction gs with
  | nil => intro i out w k hk; simp at hk
  | cons g gs ih =>
    intro i out w k hk hc
    simp only [copySlots]
    have hi : i < cap := by omega
    simp only [hi, if_true]
    cases k with
    | zero =>
      have e0 : i + 0 = i := rfl
      rw [e0, copySlots_below cap gs (i + 1) _ (w + 1) i (by omega)]
      simp
    | succ k =>
      have h := ih (i + 1) (Function.update out i g) (w + 1) k
        (by simp only [List.length_cons] at hk; omega) (by omega)
      have e : i + (k + 1) = i + 1 + k := by omega
      rw [e, h]
      simp

/-- C8: for every engine answer and every capacity, `search` leaves `out[i]` as it was for
every `i` at or above `out_capacity`; every report has `slots_written` equal to the
minimum of `total_groups_found` and `out_capacity`; and on a match at a valid offset a
report is returned with the true group count, the slots below that minimum holding the
spans of the groups in order. -/
theorem search_respects_capacity {H O : Type}
    (engine : H → List Char → Int → O → EngineResult) (handle : H) (buffer : List Char)
    (length offset : Int) (options : O) (out : Nat → Slot) (out_capacity i : Nat)
    (hi : out_capacity ≤ i) :
    (SearchOnigRegex engine handle buffer length offset options out out_capacity).2 i = out i ∧
      (∀ r, (SearchOnigRegex engine handle buffer length offset options out out_capacity).1
          = .found r → r.slots_written = min r.total_groups_found out_capacity) ∧
      (∀ groups, 0 ≤ offset → offset ≤ length →
        engine handle buffer offset options = .matched groups →
        (SearchOnigRegex engine handle buffer length offset options out out_capacity).1
            = .found { total_groups_found := groups.length,
                       slots_written := min groups.length out_capacity } ∧
          ∀ k, k < min groups.length out_capacity →
            some ((SearchOnigRegex engine handle buffer length offset options out
              out_capacity).2 k) = groups[k]?) := by
  unfold SearchOnigRegex
  by_cases hoff : offset < 0 ∨ offset > length
  · rw [if_pos hoff]
    refine ⟨rfl, ?_, ?_⟩
    · intro r hr
      exact absurd hr (by simp)
    · intro groups h0 h1 _
      omega
  · rw [if_neg hoff]
    cases he : engine handle buffer offset options with
    | error code =>
      refine ⟨rfl, ?_, ?_⟩
      · intro r hr
        exact absurd hr (by simp)
      · intro groups _ _ hg
        cases hg
    | noMatch =>
      refine ⟨rfl, ?_, ?_⟩
      · intro r hr
        exact absurd hr (by simp)
      · intro groups _ _ hg
        cases hg
    | matched gs =>
      have hcount := copySlots_count out_capacity gs 0 out 0
      simp only [Nat.zero_add, Nat.sub_zero] at hcount
      refine ⟨copySlots_beyond out_capacity gs 0 out 0 i hi, ?_, ?_⟩
      · intro r hr
        simp only [SearchOutcome.found.injEq] at hr
        subst hr
        exact hcount
      · intro groups _ _ hg
        injection hg with hg
        subst hg
        refine ⟨by simp only [hcount], fun k hk => ?_⟩
        have h := copySlots_copied out_capacity gs 0 out 0 k (by omega) (by omega)
        rw [Nat.zero_add] at h
        exact h

/-- C8, on scenario D: three groups and a capacity of 1. -/
theorem search_respects_capacity_witness :
    1 ≤ 1 ∧
      (SearchOnigRegex (fun (_ : Unit) (_ : List Char) (_ : Int) (_ : Unit) =>
          EngineResult.matched [(0, 3), (0, 1), (1, 3)])
        () [] 3 0 () (fun _ => (7, 7)) 1).2 1 = (7, 7) ∧
      (SearchOnigRegex (fun (_ : Unit) (_ : List Char) (_ : Int) (_ : Unit) =>
          EngineResult.matched [(0, 3), (0, 1), (1, 3)])
        () [] 3 0 () (fun _ => (7, 7)) 1).1
        = .found { total_groups_found := 3, slots_written := 1 } :=
  ⟨by decide,
    (search_respects_capacity (fun (_ : Unit) (_ : List Char) (_ : Int) (_ : Unit) =>
        EngineResult.matched [(0, 3), (0, 1), (1, 3)])
      () [] 3 0 () (fun _ => (7, 7)) 1 1 (by decide)).1,
    ((search_respects_capacity (fun (_ : Unit) (_ : List Char) (_ : Int) (_ : Unit) =>
        EngineResult.matched [(0, 3), (0, 1), (1, 3)])
      () [] 3 0 () (fun _ => (7, 7)) 1 1 (by decide)).2.2
        [(0, 3), (0, 1), (1, 3)] (by decide) (by decide) rfl).1⟩

end Rubex

namespace Regposerr

/-! ## Decimal digits can be read back -/

theorem digitChar_value (k : Nat) (h : k < 10) : (Nat.digitChar k).toNat - 48 = k := by
  interval_cases k <;> rfl

theorem digitChar_ne_minus (k : Nat) (h : k < 10) : Nat.digitChar k ≠ Char.ofNat 45 := by
  interval_cases k <;> decide

theorem toDigitsCore_append (fuel : Nat) :
    ∀ (n : Nat) (ds : List Char),
      Nat.toDigitsCore 10 fuel n ds = Nat.toDigitsCore 10 fuel n [] ++ ds := by
  induction fuel with
  | zero => intro n ds; simp [Nat.toDigitsCore]
  | succ f ih =>
    intro n ds
    simp only [Nat.toDigitsCore]
    split_ifs
    · simp
    · rw [ih (n / 10) (Nat.digitChar (n % 10) :: ds), ih (n / 10) [Nat.digitChar (n % 10)]]
      simp

theorem decimalValue_snoc (l : List Char) (c : Char) :
    decimalValue (l ++ [c]) = 10 * decimalValue l + (c.toNat - 48) := by
  simp [decimalValue, List.foldl_append]

theorem decimalValue_toDigitsCore (fuel : Nat) :
    ∀ n, n < fuel → decimalValue (Nat.toDigitsCore 10 fuel n []) = n := by
  induction fuel with
  | zero => intro n h; omega
  | succ f ih =>
    intro n h
    simp only [Nat.toDigitsCore]
    split_ifs with hz
    · have hv := digitChar_value (n % 10) (Nat.mod_lt _ (by decide))
      simp only [decimalValue, List.foldl_cons, List.foldl_nil]
      omega
    · rw [toDigitsCore_append f (n / 10) [Nat.digitChar (n % 10)], decimalValue_snoc,
        ih (n / 10) (by omega), digitChar_value (n % 10) (Nat.mod_lt _ (by decide))]
      omega

theorem decimalValue_repr (n : Nat) : decimalValue (Nat.repr n).toList = n := by
  have h := decimalValue_toDigitsCore (n + 1) n (by omega)
  simpa [Nat.repr, Nat.toDigits, List.asString] using h

theorem repr_toList_injective (n m : Nat) (h : (Nat.repr n).toList = (Nat.repr m).toList) :
    n = m := by
  rw [← decimalValue_repr n, ← decimalValue_repr m, h]

theorem toDigitsCore_no_minus (fuel : Nat) :
    ∀ (n : Nat) (ds : List Char), Char.ofNat 45 ∉ ds →
      Char.ofNat 45 ∉ Nat.toDigitsCore 10 fuel n ds := by
  induction fuel with
  | zero => intro n ds h; simpa [Nat.toDigitsCore] using h
  | succ f ih =>
    intro n ds h
    have hd : Char.ofNat 45 ∉ Nat.digitChar (n % 10) :: ds := by
      simp only [List.mem_cons, not_or]
      exact ⟨fun e => digitChar_ne_minus _ (Nat.mod_lt _ (by decide)) e.symm, h⟩
    simp only [Nat.toDigitsCore]
    split_ifs
    · exact hd
    · exact ih _ _ hd

theorem repr_no_minus (n : Nat) : Char.ofNat 45 ∉ (Nat.repr n).toList := by
  have h := toDigitsCore_no_minus (n + 1) n [] (by simp)
  simpa [Nat.repr, Nat.toDigits, List.asString] using h

theorem formatD_ofNat (m : Nat) : formatD (Int.ofNat m) = (Nat.repr m).toList := rfl

theorem formatD_negSucc (m : Nat) :
    formatD (Int.negSucc m) = Char.ofNat 45 :: (Nat.repr (m + 1)).toList := by
  simp [formatD, Int.repr, String.toList, String.data_append]

theorem formatD_injective (a b : Int) (h : formatD a = formatD b) : a = b := by
  cases a with
  | ofNat n =>
    cases b with
    | ofNat m =>
      rw [formatD_ofNat, formatD_ofNat] at h
      rw [repr_toList_injective n m h]
    | negSucc m =>
      rw [formatD_ofNat, formatD_negSucc] at h
      exact absurd (h ▸ List.mem_cons_self _ _) (repr_no_minus n)
  | negSucc n =>
    cases b with
    | ofNat m =>
      rw [formatD_ofNat, formatD_negSucc] at h
      exact absurd (h ▸ List.mem_cons_self _ _) (repr_no_minus m)
    | negSucc m =>
      rw [formatD_negSucc, formatD_negSucc] at h
      have h2 := repr_toList_injective (n + 1) (m + 1) (List.cons.inj h).2
      have h3 : n = m := by omega
      rw [h3]

theorem formatUndefined_injective (a b : Int) (h : formatUndefined a = formatUndefined b) :
    a = b := by
  unfold formatUndefined at h
  rw [List.append_assoc, List.append_assoc] at h
  have h1 := List.append_cancel_left h
  exact formatD_injective a b (List.append_cancel_right h1)

/-! ## How many digits a code has -/

theorem toDigitsCore_length_lower (fuel : Nat) :
    ∀ n, n < fuel → n < 10 ^ (Nat.toDigitsCore 10 fuel n []).length := by
  induction fuel with
  | zero => intro n h; omega
  | succ f ih =>
    intro n h
    simp only [Nat.toDigitsCore]
    split_ifs with hz
    · simp only [List.length_singleton, Nat.pow_one]
      omega
    · rw [toDigitsCore_append f (n / 10) [Nat.digitChar (n % 10)]]
      simp only [List.length_append, List.length_singleton, Nat.pow_succ]
      have h1 := ih (n / 10) (by omega)
      omega

theorem repr_length_lower (n : Nat) : n < 10 ^ (Nat.repr n).toList.length := by
  have h := toDigitsCore_length_lower (n + 1) n (by omega)
  simpa [Nat.repr, Nat.toDigits, List.asString] using h

theorem repr_length_ten (n : Nat) (hlo : 10 ^ 9 ≤ n) (hhi : n < 10 ^ 10) :
    (Nat.repr n).toList.length = 10 := by
  have hup : (Nat.repr n).toList.length ≤ 10 := Nat.repr_length n 10 (by decide) hhi
  have hlow := repr_length_lower n
  by_contra hne
  have h9 : (Nat.repr n).toList.length ≤ 9 := by omega
  have hpow : 10 ^ (Nat.repr n).toList.length ≤ 10 ^ 9 :=
    Nat.pow_le_pow_right (by decide) h9
  omega

theorem repr_length_nine (n : Nat) (h : n < 10 ^ 9) : (Nat.repr n).toList.length ≤ 9 :=
  Nat.repr_length n 9 (by decide) h

theorem formatUndefined_length_eq (d : Int) :
    (formatUndefined d).length = 23 + (formatD d).length := by
  have h1 : "undefined error code (".toList.length = 22 := by decide
  have h2 : ")".toList.length = 1 := by decide
  simp only [formatUndefined, List.length_append, h1, h2]
  omega

theorem formatD_length_eleven (d : Int) (hlo : INT_MIN ≤ d) (hhi : d ≤ INT_MAX) :
    (formatD d).length = 11 ↔ d ≤ -1000000000 := by
  unfold INT_MIN at hlo
  unfold INT_MAX at hhi
  cases d with
  | ofNat m =>
    have hm : m < 10 ^ 10 := by
      have : (m : Int) ≤ 2147483647 := hhi
      omega
    have h := Nat.repr_length m 10 (by decide) hm
    simp only [String.length] at h
    rw [formatD_ofNat]
    have hpos : (0 : Int) ≤ Int.ofNat m := Int.ofNat_nonneg m
    constructor
    · intro he
      have : (Nat.repr m).toList.length = (Nat.repr m).data.length := rfl
      omega
    · intro hle
      omega
  | negSucc m =>
    have h1 : Int.negSucc m ≥ -2147483648 := hlo
    have h2 := Int.negSucc_eq m
    rw [formatD_negSucc, List.length_cons]
    constructor
    · intro he
      by_contra hgt
      have hsmall : m + 1 < 10 ^ 9 := by omega
      have := repr_length_nine (m + 1) hsmall
      omega
    · intro hle
      have := repr_length_ten (m + 1) (by omega) (by omega)
      omega

/-- The generated texts of 34 characters are those of the codes at or below -1000000000. -/
theorem formatUndefined_length_max_iff (d : Int) (hlo : INT_MIN ≤ d) (hhi : d ≤ INT_MAX) :
    (formatUndefined d).length = 34 ↔ d ≤ -1000000000 := by
  rw [formatUndefined_length_eq, ← formatD_length_eleven d hlo hhi]
  omega

/-! ## The claims about the generated text and the message lengths -/

/-- C12: for every 32-bit code outside 0 .. 16 the generated text
`undefined error code (<code>)` has at most 34 characters, so `snprintf` stores it whole,
with its terminator, in the 35 bytes of `tbuf`; the bound is attained, the text for
-2147483648 having exactly 34 characters. -/
theorem undefined_text_fits_tbuf (c : Int) (hlo : INT_MIN ≤ c) (hhi : c ≤ INT_MAX)
    (hout : c < 0 ∨ c > 16) :
    formatUndefined c = ("undefined error code (" ++ Int.repr c ++ ")").toList ∧
      (formatUndefined c).length ≤ 34 ∧
      xsnprintf 35 (formatUndefined c) = formatUndefined c ++ [NUL] ∧
      (xsnprintf 35 (formatUndefined c)).length ≤ 35 ∧
      selectMessage c = .ok (some (formatUndefined c ++ [NUL])) ∧
      messageOf c = formatUndefined c ∧
      (formatUndefined INT_MIN).length = 34 ∧
      selectMessage INT_MIN = .ok (some (formatUndefined INT_MIN ++ [NUL])) := by
  have hg : ¬ (c > 0 ∧ c < (ESTRING_COUNT : Int)) := by
    rw [ESTRING_COUNT_eq]; omega
  have h0 : c ≠ 0 := by omega
  have hF : formatUndefined c = ("undefined error code (" ++ Int.repr c ++ ")").toList := by
    simp [formatUndefined, formatD, String.toList, String.data_append]
  have hlen := formatUndefined_length c hlo hhi
  have hx : xsnprintf 35 (formatUndefined c) = formatUndefined c ++ [NUL] := by
    simp [xsnprintf, List.take_of_length_le hlen]
  have hm : messageOf c = formatUndefined c := by
    rw [messageOf_undefined c hg h0, List.take_of_length_le hlen]
  refine ⟨hF, hlen, hx, ?_, ?_, hm, by decide, rfl⟩
  · rw [hx, List.length_append, List.length_singleton]
    omega
  · rw [selectMessage_undefined c hg h0, hx]

/-- C12, at the least `int`: 34 characters, stored whole. -/
theorem undefined_text_fits_tbuf_witness :
    (INT_MIN ≤ INT_MIN ∧ INT_MIN ≤ INT_MAX ∧ (INT_MIN < 0 ∨ INT_MIN > 16)) ∧
      formatUndefined INT_MIN = "undefined error code (-2147483648)".toList ∧
      (formatUndefined INT_MIN).length ≤ 34 ∧
      xsnprintf 35 (formatUndefined INT_MIN) = formatUndefined INT_MIN ++ [NUL] := by
  refine ⟨by decide, ?_⟩
  obtain ⟨h1, h2, h3, _⟩ :=
    undefined_text_fits_tbuf INT_MIN (by decide) (by decide) (by decide)
  exact ⟨h1, h2, h3⟩

/-! ## The closed set of known codes -/

/-- C11 as stated fails at code 3 (and likewise at 4 and 6): the code is under the
guard, its message is the table entry `invalid collating element referenced`, which is
none of the thirteen messages named and is not the generated text. -/
theorem known_codes_thirteen_counterexample :
    ((3 : Int) > 0 ∧ (3 : Int) < (ESTRING_COUNT : Int)) ∧
      ESTRING[(3 : Int).toNat]? = some (some (literal "invalid collating element referenced")) ∧
      selectMessage 3 = .ok (some (literal "invalid collating element referenced")) ∧
      messageOf 3 = "invalid collating element referenced".toList ∧
      messageOf 4 = "invalid character class type referenced".toList ∧
      messageOf 6 = "invalid back reference number".toList ∧
      (∀ c ∈ ([3, 4, 6] : List Int),
        messageOf c ∉
            [ "failed to match", "Invalid regular expression", "bad backslash-escape sequence",
          "imbalanced [ and ]", "imbalanced ( and )", "imbalanced \x7b and \x7d",
          "invalid repeat range \x7bn,m\x7d", "invalid range", "Out of memory",
          "? * + not preceded by valid regular expression", "internal error",
          "invalid wide char value", "invalid argument" ].map String.toList ∧
          messageOf c ≠ ("undefined error code (" ++ Int.repr c ++ ")").toList) ∧
      ¬ (∀ c : Int, INT_MIN ≤ c → c ≤ INT_MAX → c ≠ 0 →
          messageOf c ∈
              [ "failed to match", "Invalid regular expression", "bad backslash-escape sequence",
          "imbalanced [ and ]", "imbalanced ( and )", "imbalanced \x7b and \x7d",
          "invalid repeat range \x7bn,m\x7d", "invalid range", "Out of memory",
          "? * + not preceded by valid regular expression", "internal error",
          "invalid wide char value", "invalid argument" ].map String.toList ∨
            messageOf c = ("undefined error code (" ++ Int.repr c ++ ")").toList) := by
  have hall : ∀ c ∈ ([3, 4, 6] : List Int),
      messageOf c ∉
          [ "failed to match", "Invalid regular expression", "bad backslash-escape sequence",
          "imbalanced [ and ]", "imbalanced ( and )", "imbalanced \x7b and \x7d",
          "invalid repeat range \x7bn,m\x7d", "invalid range", "Out of memory",
          "? * + not preceded by valid regular expression", "internal error",
          "invalid wide char value", "invalid argument" ].map String.toList ∧
        messageOf c ≠ ("undefined error code (" ++ Int.repr c ++ ")").toList := by decide
  refine ⟨by decide, rfl, rfl, rfl, rfl, rfl, hall, fun h => ?_⟩
  obtain ⟨hmem, hne⟩ := hall 3 (by decide)
  rcases h 3 (by decide) (by decide) (by decide) with h3 | h3
  · exact hmem h3
  · exact hne h3

/-- C11 amended: a non-zero 32-bit code receives a fixed table message exactly when it
is one of 1 .. 16, and that message is one of the thirteen named or one of
`invalid collating element referenced`, `invalid character class type referenced`,
`invalid back reference number`; every other non-zero code is described as
`undefined error code (N)`. -/
theorem known_codes_closed (c : Int) (hlo : INT_MIN ≤ c) (hhi : c ≤ INT_MAX) (h0 : c ≠ 0) :
    ((1 ≤ c ∧ c ≤ 16) ∧
        ∃ t : String,
          t ∈ [ "failed to match", "Invalid regular expression", "bad backslash-escape sequence",
          "imbalanced [ and ]", "imbalanced ( and )", "imbalanced \x7b and \x7d",
          "invalid repeat range \x7bn,m\x7d", "invalid range", "Out of memory",
          "? * + not preceded by valid regular expression", "internal error",
          "invalid wide char value", "invalid argument" ] ++
              [ "invalid collating element referenced",
                "invalid character class type referenced",
                "invalid back reference number" ] ∧
            ESTRING[c.toNat]? = some (some (literal t)) ∧
            selectMessage c = .ok (some (literal t)) ∧
            messageOf c = t.toList) ∨
      ((c < 0 ∨ 16 < c) ∧
        selectMessage c =
          .ok (some (literal ("undefined error code (" ++ Int.repr c ++ ")"))) ∧
        messageOf c = ("undefined error code (" ++ Int.repr c ++ ")").toList) := by
  by_cases hg : 1 ≤ c ∧ c ≤ 16
  · left
    refine ⟨hg, ?_⟩
    obtain ⟨n, rfl⟩ : ∃ n : Nat, c = (n : Int) := ⟨c.toNat, by omega⟩
    have hn1 : 1 ≤ n := by omega
    have hn16 : n ≤ 16 := by omega
    clear hg hlo hhi h0
    interval_cases n <;> refine ⟨_, ?_, rfl, rfl, rfl⟩ <;> decide
  · right
    have hout : c < 0 ∨ 16 < c := by omega
    have hguard : ¬ (c > 0 ∧ c < (ESTRING_COUNT : Int)) := by
      rw [ESTRING_COUNT_eq]; omega
    have hF : formatUndefined c = ("undefined error code (" ++ Int.repr c ++ ")").toList := by
      simp [formatUndefined, formatD, String.toList, String.data_append]
    have hm : messageOf c = ("undefined error code (" ++ Int.repr c ++ ")").toList := by
      rw [messageOf_undefined c hguard h0,
        List.take_of_length_le (formatUndefined_length c hlo hhi), hF]
    refine ⟨hout, ?_, hm⟩
    rw [(selectMessage_terminated c).1, hm]
    rfl

/-- C11 amended, at code 3, one of the three codes beyond the thirteen. -/
theorem known_codes_closed_witness :
    (INT_MIN ≤ 3 ∧ (3 : Int) ≤ INT_MAX ∧ (3 : Int) ≠ 0) ∧
      ((((1 : Int) ≤ 3 ∧ (3 : Int) ≤ 16) ∧
          ∃ t : String,
            t ∈ [ "failed to match", "Invalid regular expression", "bad backslash-escape sequence",
          "imbalanced [ and ]", "imbalanced ( and )", "imbalanced \x7b and \x7d",
          "invalid repeat range \x7bn,m\x7d", "invalid range", "Out of memory",
          "? * + not preceded by valid regular expression", "internal error",
          "invalid wide char value", "invalid argument" ] ++
                [ "invalid collating element referenced",
                  "invalid character class type referenced",
                  "invalid back reference number" ] ∧
              ESTRING[(3 : Int).toNat]? = some (some (literal t)) ∧
              selectMessage 3 = .ok (some (literal t)) ∧
              messageOf 3 = t.toList) ∨
        (((3 : Int) < 0 ∨ 16 < (3 : Int)) ∧
          selectMessage 3 =
            .ok (some (literal ("undefined error code (" ++ Int.repr 3 ++ ")"))) ∧
          messageOf 3 = ("undefined error code (" ++ Int.repr 3 ++ ")").toList)) :=
  ⟨by decide, known_codes_closed 3 (by decide) (by decide) (by decide)⟩

/-! ## Shape of the messages by class of code -/

theorem table_messages_injective :
    ∀ n < 17, ∀ m < 17, messageOf (n : Nat) = messageOf (m : Nat) → n = m := by
  decide

theorem table_messages_shape :
    ∀ n < 17, 0 < n →
      (messageOf (n : Nat)).length ≤ 46 ∧ ((messageOf (n : Nat)).length = 46 ↔ n = 13) ∧
        (messageOf (n : Nat)).head? ≠ none ∧
        (messageOf (n : Nat)).head? ≠ some (Char.ofNat 117) := by
  decide

theorem formatUndefined_cons (c : Int) :
    formatUndefined c =
      Char.ofNat 117 :: ("ndefined error code (".toList ++ formatD c ++ ")".toList) := rfl

theorem messageOf_undefined_head (c : Int) (h : ¬ (c > 0 ∧ c < (ESTRING_COUNT : Int)))
    (h0 : c ≠ 0) : (messageOf c).head? = some (Char.ofNat 117) := by
  rw [messageOf_undefined c h h0, formatUndefined_cons]
  rfl

theorem messageOf_undefined_length (c : Int) (h : ¬ (c > 0 ∧ c < (ESTRING_COUNT : Int)))
    (h0 : c ≠ 0) : (messageOf c).length ≤ 34 := by
  rw [messageOf_undefined c h h0, List.length_take]
  omega

theorem messageOf_zero : messageOf 0 = [] := by decide

/-- The three classes of codes: under the guard, zero, generated. -/
theorem messageOf_classes (c : Int) :
    (∃ n : Nat, c = (n : Int) ∧ 0 < n ∧ n < 17) ∨ c = 0 ∨
      (¬ (c > 0 ∧ c < (ESTRING_COUNT : Int)) ∧ c ≠ 0) := by
  by_cases hg : c > 0 ∧ c < (ESTRING_COUNT : Int)
  · left
    rw [ESTRING_COUNT_eq] at hg
    exact ⟨c.toNat, by omega, by omega, by omega⟩
  · by_cases h0 : c = 0
    · exact Or.inr (Or.inl h0)
    · exact Or.inr (Or.inr ⟨hg, h0⟩)

theorem messageOf_length_le (c : Int) :
    (messageOf c).length ≤ 46 ∧ ((messageOf c).length = 46 ↔ c = 13) := by
  rcases messageOf_classes c with ⟨n, rfl, h0, h17⟩ | h | ⟨hg, h0⟩
  · obtain ⟨h1, h2, _⟩ := table_messages_shape n h17 h0
    refine ⟨h1, ?_⟩
    rw [h2]
    omega
  · subst h
    exact ⟨by decide, by decide⟩
  · have hl := messageOf_undefined_length c hg h0
    have h13 : c ≠ 13 := by
      intro h
      apply hg
      rw [h]
      decide
    refine ⟨by omega, ?_⟩
    constructor
    · intro h; omega
    · intro h; exact absurd h h13

theorem messageOf_eq_nil_iff (c : Int) : messageOf c = [] ↔ c = 0 := by
  constructor
  · intro h
    rcases messageOf_classes c with ⟨n, rfl, h0, h17⟩ | h1 | ⟨hg, h0⟩
    · obtain ⟨_, _, h3, _⟩ := table_messages_shape n h17 h0
      rw [h] at h3
      exact absurd rfl h3
    · exact h1
    · have hh := messageOf_undefined_head c hg h0
      rw [h] at hh
      cases hh
  · intro h
    rw [h]
    exact messageOf_zero

theorem messageOf_injective_int32 (c d : Int) (hc1 : INT_MIN ≤ c) (hc2 : c ≤ INT_MAX)
    (hd1 : INT_MIN ≤ d) (hd2 : d ≤ INT_MAX) (h : messageOf c = messageOf d) : c = d := by
  rcases messageOf_classes c with ⟨n, rfl, hn0, hn17⟩ | hc | ⟨hcg, hc0⟩
  · rcases messageOf_classes d with ⟨m, rfl, hm0, hm17⟩ | hd | ⟨hdg, hd0⟩
    · rw [table_messages_injective n hn17 m hm17 h]
    · subst hd
      exact absurd ((messageOf_eq_nil_iff _).1 (h.trans messageOf_zero)) (by omega)
    · obtain ⟨_, _, _, h4⟩ := table_messages_shape n hn17 hn0
      rw [h, messageOf_undefined_head d hdg hd0] at h4
      exact absurd rfl h4
  · subst hc
    exact ((messageOf_eq_nil_iff d).1 (h.symm.trans messageOf_zero)).symm
  · rcases messageOf_classes d with ⟨m, rfl, hm0, hm17⟩ | hd | ⟨hdg, hd0⟩
    · obtain ⟨_, _, _, h4⟩ := table_messages_shape m hm17 hm0
      rw [← h, messageOf_undefined_head c hcg hc0] at h4
      exact absurd rfl h4
    · subst hd
      exact (messageOf_eq_nil_iff c).1 (h.trans messageOf_zero)
    · rw [messageOf_undefined c hcg hc0, messageOf_undefined d hdg hd0,
        List.take_of_length_le (formatUndefined_length c hc1 hc2),
        List.take_of_length_le (formatUndefined_length d hd1 hd2)] at h
      exact formatUndefined_injective c d h

theorem table_entries_shape :
    ∀ e ∈ ESTRING.drop 1,
      e.bind List.head? ≠ none ∧ e.bind List.head? ≠ some NUL ∧
        e.bind List.head? ≠ some (Char.ofNat 117) := by
  decide

/-! ## The claims about lengths, the sentinel, injectivity and determinism -/

/-- C13: for every code, hence for every 32-bit one, the returned length is between 1 and
47, whatever the buffer and the size, so a buffer of 47 bytes holds the complete message
after the call; the value 47 is returned for code 13 (and for no other code). -/
theorem regerror_length_at_most_47 {R : Type} (c : Int) (reg : Option R) (b : Nat → Char) :
    ∃ len b', onig_posix_regerror c reg (some b) 47 = .ok (len, some b') ∧
      1 ≤ len ∧ len ≤ 47 ∧
      readCString b' 47 = some (messageOf c) ∧
      (∀ (buf : Option (Nat → Char)) (size : Nat),
        (onig_posix_regerror c reg buf size).map Prod.fst = .ok len) ∧
      (len = 47 ↔ c = 13) ∧
      (onig_posix_regerror 13 reg (some b) 47).map Prod.fst = .ok 47 := by
  obtain ⟨hle, h13⟩ := messageOf_length_le c
  obtain ⟨_, hn⟩ := selectMessage_terminated c
  refine ⟨(messageOf c).length + 1, bufferAfter (messageOf c) b 47,
    regerror_eq c reg (some b) 47, by omega, by omega, ?_, ?_, ?_, ?_⟩
  · rw [readCString_bufferAfter _ b 47 (by omega) hn, List.take_of_length_le (by omega)]
  · intro buf size
    rw [regerror_eq]
    rfl
  · rw [← h13]
    omega
  · rw [regerror_eq]
    rfl

/-- C14: for every integer code the message is empty exactly when the code is 0, and
the returned length is 1 exactly when the code is 0. -/
theorem regerror_empty_iff_zero {R : Type} (c : Int) (reg : Option R)
    (buf : Option (Nat → Char)) (size : Nat) :
    selectMessage c = .ok (some (messageOf c ++ [NUL])) ∧
      (messageOf c = [] ↔ c = 0) ∧
      ((onig_posix_regerror c reg buf size).map Prod.fst = .ok 1 ↔ c = 0) ∧
      ((onig_posix_regerror c reg buf size).map Prod.fst = .ok 1 ↔ messageOf c = []) := by
  have hcall : (onig_posix_regerror c reg buf size).map Prod.fst
      = .ok ((messageOf c).length + 1) := by
    rw [regerror_eq]
    rfl
  have hlen : (onig_posix_regerror c reg buf size).map Prod.fst = .ok 1 ↔ messageOf c = [] := by
    rw [hcall]
    constructor
    · intro h
      injection h with h
      exact List.length_eq_zero.1 (by omega)
    · intro h
      rw [h]
      rfl
  exact ⟨(selectMessage_terminated c).1, messageOf_eq_nil_iff c,
    hlen.trans (messageOf_eq_nil_iff c), hlen⟩

/-- C15: two distinct 32-bit codes have different messages; the sixteen table strings are
pairwise distinct, none is `NULL`, empty or a generated text, and the generated texts of
different numbers differ. -/
theorem regerror_message_injective (c d : Int) (hc1 : INT_MIN ≤ c) (hc2 : c ≤ INT_MAX)
    (hd1 : INT_MIN ≤ d) (hd2 : d ≤ INT_MAX) (hne : c ≠ d) :
    messageOf c ≠ messageOf d ∧
      selectMessage c ≠ selectMessage d ∧
      (ESTRING.drop 1).Nodup ∧
      (∀ e ∈ ESTRING.drop 1,
        e ≠ none ∧ e ≠ some (literal "") ∧ ∀ N : Int, e ≠ some (formatUndefined N ++ [NUL])) ∧
      (∀ N M : Int, N ≠ M → formatUndefined N ≠ formatUndefined M) := by
  have hm : messageOf c ≠ messageOf d :=
    fun h => hne (messageOf_injective_int32 c d hc1 hc2 hd1 hd2 h)
  refine ⟨hm, ?_, by decide, ?_, ?_⟩
  · intro h
    rw [(selectMessage_terminated c).1, (selectMessage_terminated d).1] at h
    injection h with h
    injection h with h
    exact hm (List.append_cancel_right h)
  · intro e he
    obtain ⟨h1, h2, h3⟩ := table_entries_shape e he
    refine ⟨?_, ?_, ?_⟩
    · intro h
      rw [h] at h1
      exact h1 rfl
    · intro h
      rw [h] at h2
      exact h2 rfl
    · intro N h
      rw [h, formatUndefined_cons] at h3
      exact h3 rfl
  · intro N M hNM h
    exact hNM (formatUndefined_injective N M h)

/-- C15, at the codes 17 and -17. -/
theorem regerror_message_injective_witness :
    (INT_MIN ≤ 17 ∧ (17 : Int) ≤ INT_MAX ∧ INT_MIN ≤ -17 ∧ (-17 : Int) ≤ INT_MAX ∧
        (17 : Int) ≠ -17) ∧
      messageOf 17 ≠ messageOf (-17) :=
  ⟨by decide,
    (regerror_message_injective 17 (-17) (by decide) (by decide) (by decide) (by decide)
      (by decide)).1⟩

/-- C16: two calls with the same code and the same size of at least 1, whatever the two
`reg` arguments and the prior contents of the two buffers, return the same length and
leave the same first `size` bytes: the message cut to `size - 1` bytes, then `NUL` in
every position up to `size - 1`. -/
theorem regerror_deterministic {R1 R2 : Type} (c : Int) (reg1 : Option R1) (reg2 : Option R2)
    (b1 b2 : Nat → Char) (size : Nat) (hsize : 1 ≤ size) :
    ∃ len b1' b2',
      onig_posix_regerror c reg1 (some b1) size = .ok (len, some b1') ∧
      onig_posix_regerror c reg2 (some b2) size = .ok (len, some b2') ∧
      firstBytes b1' size = firstBytes b2' size ∧
      (∀ i, i < size → b1' i = b2' i) ∧
      firstBytes b1' size =
        (messageOf c).take (size - 1) ++
          List.replicate (size - min (messageOf c).length (size - 1)) NUL ∧
      (∀ i, (messageOf c).length ≤ i → i < size → b1' i = NUL ∧ b2' i = NUL) := by
  have hf1 := firstBytes_bufferAfter (messageOf c) b1 size (by omega)
  have hf2 := firstBytes_bufferAfter (messageOf c) b2 size (by omega)
  refine ⟨_, bufferAfter (messageOf c) b1 size, bufferAfter (messageOf c) b2 size,
    regerror_eq c reg1 (some b1) size, regerror_eq c reg2 (some b2) size, ?_, ?_, ?_, ?_⟩
  · rw [hf1, hf2]
  · intro i hi
    have h1 : (firstBytes (bufferAfter (messageOf c) b1 size) size)[i]? =
        (firstBytes (bufferAfter (messageOf c) b2 size) size)[i]? := by rw [hf1, hf2]
    rw [List.getElem?_eq_getElem (by rw [firstBytes_length]; exact hi),
      List.getElem?_eq_getElem (by rw [firstBytes_length]; exact hi),
      firstBytes_getElem, firstBytes_getElem] at h1
    exact Option.some.inj h1
  · rw [hf1]
    have hk : size - min (messageOf c).length (size - 1) = (size - 1 - (messageOf c).length) + 1 := by
      omega
    rw [hk, List.replicate_succ]
  · intro i hl hi
    exact ⟨bufferAfter_padding _ b1 size i hi hl, bufferAfter_padding _ b2 size i hi hl⟩

/-- C16, for code 0 and two 3-byte buffers that held `x` and `y`: both read three NULs. -/
theorem regerror_deterministic_witness :
    1 ≤ 3 ∧ ∃ len b1' b2',
      onig_posix_regerror 0 (none : Option Unit) (some (fun _ => Char.ofNat 120)) 3
        = .ok (len, some b1') ∧
      onig_posix_regerror 0 (some 5 : Option Nat) (some (fun _ => Char.ofNat 121)) 3
        = .ok (len, some b2') ∧
      firstBytes b1' 3 = firstBytes b2' 3 ∧
      firstBytes b1' 3 = [NUL, NUL, NUL] := by
  refine ⟨by decide, ?_⟩
  obtain ⟨len, b1', b2', h1, h2, h3, _, h5, _⟩ :=
    regerror_deterministic 0 (none : Option Unit) (some 5 : Option Nat)
      (fun _ => Char.ofNat 120) (fun _ => Char.ofNat 121) 3 (by decide)
  exact ⟨len, b1', b2', h1, h2, h3, h5⟩

end Regposerr
